import Mathlib

/-!
Shallow embedding of `blocks/graph.py` (annotated computation graph
management) from the EderSantana/blocks repository.

Theano variables have object identity; we model a variable by a natural
number identity (`Var`).  A variable's mutable metadata (its `tag`) is kept
in an explicit side table (`World`), so that the Python code's in-place tag
mutation becomes explicit state passing.  Annotation objects
(`blocks.graph.Annotation`) also have object identity and mutable state
(their `auxiliary_variables` list grows), so they too live in the `World`,
keyed by an `AnnotationId`.

The Theano expression DAG itself (apply nodes and their input edges) is
immutable and is modelled by `TGraph`.  Every apply node here has a single
output variable; the discovery algorithm of the source only ever reads
`apply_node.inputs`, so this restriction does not change its structure.
-/

abbrev Var := Nat

abbrev AnnotationId := Nat

/-- Role tags (`blocks.roles`) are opaque labels used only for filtering. -/
abbrev Role := Nat

/-- Modelled from the spec: the `AUXILIARY` role constant from `blocks.roles`
(not under `src/`); an opaque distinguished role tag. -/
def AUXILIARY : Role := 0

/-- The metadata record a Theano variable's `tag` attribute carries:
its attached annotations (`tag.annotations`), its role tags (`tag.roles`)
and its `tag.name`.  Absent attributes are modelled by the defaults
`[]` / `none`, matching the source's `getattr(var.tag, 'annotations', [])`. -/
structure Tag where
  annotations : List AnnotationId
  roles : List Role
  name : Option String
deriving DecidableEq, Repr

def Tag.default : Tag := ⟨[], [], none⟩

/-- The state of one `Annotation` object (`blocks.graph.Annotation`): its
concrete Python class (`kind`, compared by `__class__ ==` in
`add_annot`), its `auxiliary_variables` list and its `updates`
ordered dictionary (modelled as an insertion-ordered association list). -/
structure AnnotationData where
  kind : Nat
  auxiliary_variables : List Var
  updates : List (Var × Var)
deriving DecidableEq, Repr

def AnnotationData.default : AnnotationData := ⟨0, [], []⟩

/-- The value held by a shared variable, as returned by `get_value()`:
a numpy array, of which `collect_parameters` only reads `.shape` and
`.size`. -/
structure NdArray where
  shape : List Nat
deriving DecidableEq, Repr

/-- Numpy's `.size`: the product of the dimensions. -/
def NdArray.size (a : NdArray) : Nat := a.shape.prod

/-- What a root variable is: a graph input, a shared (stateful) variable or
a constant; variables produced by an apply node are `internal`. -/
inductive VKind where
  | input
  | shared
  | constant
  | internal
deriving DecidableEq, Repr

/-- The mutable world: each variable's `tag` metadata, each annotation
object's state, each variable's `name` attribute, and each shared
variable's current value. -/
structure World where
  tags : List (Var × Tag)
  anns : List (AnnotationId × AnnotationData)
  varNames : List (Var × String)
  vals : List (Var × NdArray)
deriving DecidableEq, Repr

def assocFind {β : Type} (l : List (Nat × β)) (k : Nat) : Option β :=
  match l with
  | [] => none
  | (k', v) :: rest => if k' = k then some v else assocFind rest k

def assocSet {β : Type} (l : List (Nat × β)) (k : Nat) (v : β) : List (Nat × β) :=
  match l with
  | [] => [(k, v)]
  | (k', v') :: rest =>
    if k' = k then (k, v) :: rest else (k', v') :: assocSet rest k v

def World.tagOf (w : World) (v : Var) : Tag :=
  (assocFind w.tags v).getD Tag.default

def World.setTag (w : World) (v : Var) (t : Tag) : World :=
  { w with tags := assocSet w.tags v t }

def World.annOf (w : World) (a : AnnotationId) : AnnotationData :=
  (assocFind w.anns a).getD AnnotationData.default

def World.setAnn (w : World) (a : AnnotationId) (d : AnnotationData) : World :=
  { w with anns := assocSet w.anns a d }

def World.setName (w : World) (v : Var) (n : String) : World :=
  { w with varNames := assocSet w.varNames v n }

def World.valOf (w : World) (v : Var) : NdArray :=
  (assocFind w.vals v).getD ⟨[]⟩

/-- An apply node of the Theano expression DAG: the variable it produces
(`out`, giving the node its identity), an operation identifier and its
input variables. -/
structure ApplyNode where
  out : Var
  op : Nat
  inputs : List Var
deriving DecidableEq, Repr

/-- The immutable expression DAG: all apply nodes, plus the kind of each
root variable (variables not produced by any apply node). -/
structure TGraph where
  applies : List ApplyNode
  kinds : List (Var × VKind)
deriving DecidableEq, Repr

/-- A variable's producing apply node (`var.owner` in Theano). -/
def TGraph.owner (g : TGraph) (v : Var) : Option ApplyNode :=
  g.applies.find? (fun a => a.out = v)

def TGraph.varKind (g : TGraph) (v : Var) : VKind :=
  match g.owner v with
  | some _ => VKind.internal
  | none => (assocFind g.kinds v).getD VKind.input

/-- Modelled from the spec: `is_graph_input` from `blocks.utils` (not under
`src/`) — a variable is a graph input when it is a root that is neither a
shared variable nor a constant. -/
def is_graph_input (g : TGraph) (v : Var) : Bool :=
  g.varKind v = VKind.input

/-- Modelled from the spec: `is_shared_variable` from `blocks.utils` (not
under `src/`) — tests whether a variable is a shared (stateful) variable. -/
def is_shared_variable (g : TGraph) (v : Var) : Bool :=
  g.varKind v = VKind.shared

/-- Translated from `add_annotation` (`blocks/graph.py`): raises
`ValueError` when an annotation of the same concrete class is already
attached to `var`, otherwise rebinds `var.tag.annotations` to the old list
with `annotation` appended. -/
def add_annot (w : World) (var : Var) (annot : AnnotationId) :
    Except String World :=
  let annotations := (w.tagOf var).annotations
  if annotations.any
      (fun old => (w.annOf old).kind = (w.annOf annot).kind) then
    Except.error "ValueError"
  else
    Except.ok (w.setTag var
      { w.tagOf var with annotations := annotations ++ [annot] })

/-- Modelled from the spec: `add_role` from `blocks.roles` (not under
`src/`) — the role-tagging convention only adds the role tag to the
variable's metadata. -/
def add_role (w : World) (var : Var) (role : Role) : World :=
  w.setTag var { w.tagOf var with roles := (w.tagOf var).roles ++ [role] }

/-- Translated from `Annotation.add_auxiliary_variable` (`blocks/graph.py`):
attach the annotation itself to `expression` (a raised `ValueError`
propagates, leaving everything untouched), set the expression's `name` and
`tag.name` when a name is given, add the `AUXILIARY` role, add every
caller-supplied role, and append `expression` to the annotation's
`auxiliary_variables` list. -/
def add_auxiliary_variable (w : World) (self : AnnotationId) (expression : Var)
    (roles : Option (List Role)) (name : Option String) : Except String World :=
  match add_annot w expression self with
  | Except.error e => Except.error e
  | Except.ok w1 =>
    let w2 := match name with
      | some n =>
        (w1.setName expression n).setTag expression
          { (w1.tagOf expression) with name := some n }
      | none => w1
    let w3 := add_role w2 expression AUXILIARY
    let w4 := match roles with
      | some rs => rs.foldl (fun w r => add_role w expression r) w3
      | none => w3
    Except.ok (w4.setAnn self
      { w4.annOf self with
        auxiliary_variables := (w4.annOf self).auxiliary_variables
          ++ [expression] })

/-- First-occurrence deduplication, the embedding of the Python idiom
`[x for x in l if not (x in seen or seen.add(x))]` starting from an empty
`seen` set. -/
def dedupStep {α : Type} [DecidableEq α] (acc : List α) (x : α) : List α :=
  if acc.contains x then acc else acc ++ [x]

def dedupAppend {α : Type} [DecidableEq α] (l : List α) : List α :=
  l.foldl dedupStep []

/-- Modelled from the spec: a deterministic depth-first traversal standing
for Theano's `sort_apply_nodes` external primitive — a dependency-order
topological sort of the apply nodes between the graph inputs and the
outputs, with a stable deterministic tie-break, so that an apply node is
listed after the apply nodes producing its inputs.  `fuel` bounds the
recursion depth; any bound of at least the DAG's depth gives the sort. -/
def topoVisit (g : TGraph) : Nat → List ApplyNode → Var → List ApplyNode
  | 0, acc, _ => acc
  | fuel + 1, acc, v =>
    match g.owner v with
    | none => acc
    | some a =>
      if acc.contains a then acc
      else
        let acc' := a.inputs.foldl (topoVisit g fuel) acc
        if acc'.contains a then acc' else acc' ++ [a]

/-- Modelled from the spec: `sort_apply_nodes` from `theano.gof.sched`
(external collaborator) applied as in `_get_variables`. -/
def sort_apply_nodes (g : TGraph) (outputs : List Var) : List ApplyNode :=
  outputs.foldl (topoVisit g (g.applies.length + 1)) []

/-- Modelled from the spec: `dict_union` from `blocks.utils` (not under
`src/`) — plain ordered-dictionary union where later entries silently
overwrite earlier ones per key, existing keys keeping their position and
new keys being appended in order. -/
def dictInsert (d : List (Var × Var)) (kv : Var × Var) : List (Var × Var) :=
  if (d.map Prod.fst).contains kv.1 then
    d.map (fun p => if p.1 = kv.1 then (p.1, kv.2) else p)
  else d ++ [kv]

def dict_union (d1 d2 : List (Var × Var)) : List (Var × Var) :=
  d2.foldl dictInsert d1

/-- Python's `OrderedDict(pairs)` on a list of pairs: insert the pairs in
order, a later pair for the same key overwriting the earlier one. -/
def toOrderedDict (l : List (Var × Var)) : List (Var × Var) :=
  l.foldl dictInsert []

/-- The running state of the second loop of
`ComputationGraph._get_variables`: the set of annotation objects already
visited (`seen`, as an insertion-ordered list; the source only performs
membership tests on it), the set of variables already scheduled
(`seen_avs`), the `variables` accumulator and the running `updates`. -/
structure DiscoveryState where
  seen : List AnnotationId
  seen_avs : List Var
  «variables» : List Var
  updates : List (Var × Var)
deriving DecidableEq, Repr

/-- The body of `if annotation not in seen:` in `_get_variables`: mark the
annotation visited, filter its auxiliary variables against (and into)
`seen_avs`, extend `variables`, and merge the annotation's updates. -/
def processAnnot (w : World) (s : DiscoveryState) (a : AnnotationId) :
    DiscoveryState :=
  if s.seen.contains a then s
  else
    let stepped := (w.annOf a).auxiliary_variables.foldl
      (fun (p : List Var × List Var) av =>
        if p.2.contains av then p else (p.1 ++ [av], p.2 ++ [av]))
      ([], s.seen_avs)
    { seen := s.seen ++ [a]
      seen_avs := stepped.2
      «variables» := s.«variables» ++ stepped.1
      updates := dict_union s.updates (w.annOf a).updates }

/-- One iteration of `for var in main_vars:` in `_get_variables`: append
the variable, then process each annotation attached to its tag. -/
def processVar (w : World) (s : DiscoveryState) (v : Var) : DiscoveryState :=
  (w.tagOf v).annotations.foldl (processAnnot w)
    { s with «variables» := s.«variables» ++ [v] }

/-- The `main_vars` list of `_get_variables`: the deduplicated
concatenation of the inputs of all topologically sorted apply nodes, with
the outputs appended (without any deduplication against the former). -/
def mainVars (g : TGraph) (outputs : List Var) : List Var :=
  dedupAppend ((sort_apply_nodes g outputs).map ApplyNode.inputs).flatten
    ++ outputs

/-- Translated from `ComputationGraph._get_variables` (`blocks/graph.py`):
the full discovery loop state after walking `main_vars`. -/
def discover (w : World) (g : TGraph) (outputs : List Var) : DiscoveryState :=
  let main_vars := mainVars g outputs
  main_vars.foldl (processVar w) ⟨[], main_vars, [], []⟩

/-- The `(variables, updates)` pair computed by
`ComputationGraph._get_variables`. -/
def get_variables (w : World) (g : TGraph) (outputs : List Var) :
    List Var × List (Var × Var) :=
  ((discover w g outputs).«variables», (discover w g outputs).updates)

/-- The managed container: the fields `ComputationGraph.__init__` stores on
the instance. -/
structure ComputationGraph where
  outputs : List Var
  «variables» : List Var
  updates : List (Var × Var)
deriving DecidableEq, Repr

/-- The constructor argument: either a bare Theano variable or a list of
them (`if isinstance(outputs, Variable): outputs = [outputs]`). -/
inductive CGOutputs where
  | single (v : Var)
  | many (vs : List Var)
deriving DecidableEq, Repr

/-- Translated from `ComputationGraph.__init__`: wrap a bare variable into
a one-element list, store the outputs and run `_get_variables`. -/
def mkComputationGraph (w : World) (g : TGraph) (outputs : CGOutputs) :
    ComputationGraph :=
  let outs := match outputs with
    | CGOutputs.single v => [v]
    | CGOutputs.many vs => vs
  ⟨outs, (get_variables w g outs).1, (get_variables w g outs).2⟩

/-- The `inputs` property: variables that are graph inputs. -/
def ComputationGraph.inputs (g : TGraph) (self : ComputationGraph) :
    List Var :=
  self.«variables».filter (is_graph_input g)

/-- The `shared_variables` property: variables that are shared. -/
def ComputationGraph.shared_variables (g : TGraph) (self : ComputationGraph) :
    List Var :=
  self.«variables».filter (is_shared_variable g)

/-- Modelled from the spec: Theano's `clone(outputs, replace=...)`
primitive (external collaborator) — a capture-consistent simultaneous
substitution: every occurrence of a replaced variable, as an apply-node
input or as an output, is substituted in one simultaneous graph edit. -/
def substVar (repl : List (Var × Var)) (v : Var) : Var :=
  (assocFind repl v).getD v

def substApply (repl : List (Var × Var)) (a : ApplyNode) : ApplyNode :=
  { a with inputs := a.inputs.map (substVar repl) }

def substGraph (g : TGraph) (repl : List (Var × Var)) : TGraph :=
  { g with applies := g.applies.map (substApply repl) }

/-- Translated from `ComputationGraph.replace` (`blocks/graph.py`):
`ComputationGraph(theano.clone(self.outputs, replace=replacements))` — the
cloned-with-substitution outputs are handed to the constructor, which runs
a fresh discovery.  The body contains no assignment to `self` or to any
ambient state, so its embedding threads the world and the DAG through
unchanged; the pair is returned explicitly to make that visible. -/
def ComputationGraph.replace (w : World) (g : TGraph)
    (self : ComputationGraph) (replacements : List (Var × Var)) :
    ComputationGraph × World × TGraph :=
  (mkComputationGraph w (substGraph g replacements)
    (CGOutputs.many (self.outputs.map (substVar replacements))), w, g)

/-- Translated from `ComputationGraph.get_theano_function`
(`blocks/graph.py`): the update dictionary handed to `theano.function` —
the graph's own updates, merged with the caller's `additional_updates`
(converted to an `OrderedDict`) when that argument is truthy.  The
compilation itself is the external primitive and out of scope; the update
contract is what this function computes. -/
def get_theano_function_updates (self : ComputationGraph)
    (additional_updates : List (Var × Var)) : List (Var × Var) :=
  if additional_updates.isEmpty then self.updates
  else dict_union self.updates (toOrderedDict additional_updates)

/-- Modelled from the spec: `config.default_seed` (the `blocks.config`
module is not under `src/`); the `apply_noise` docstring documents the
default as an RNG with seed 1. -/
def config_default_seed : Int := 1

/-- Python truthiness of the `seed` argument (`None` or an integer):
`not seed` is true exactly when the argument is `None` or `0`. -/
def pyFalsySeed (seed : Option Int) : Bool :=
  match seed with
  | none => true
  | some n => n = 0

/-- The symbolic expression `variable + rng.normal(variable.shape,
std=level)` built by `apply_noise`, recording which variable is perturbed,
the noise level and the seed of the `MRG_RandomStreams` the normal sample
is drawn from. -/
structure NoiseExpr where
  base : Var
  std : Int
  rngSeed : Int
deriving DecidableEq, Repr

/-- Translated from `apply_noise` (`blocks/graph.py`): replace a falsy
`seed` (`None` or `0`) by `config.default_seed`, build one
`MRG_RandomStreams(seed)` (modelled by the seed it is constructed from),
map each listed variable to `variable + rng.normal(variable.shape,
std=level)`, and hand the mapping to `graph.replace`.  Returned here are
the substitution mapping and the seed the stream was built from; the
final `graph.replace(replace)` call is the `ComputationGraph.replace`
embedding above. -/
def apply_noise («variables» : List Var) (level : Int) (seed : Option Int) :
    List (Var × NoiseExpr) × Int :=
  let seed' : Int := if pyFalsySeed seed then config_default_seed
    else seed.getD config_default_seed
  («variables».map (fun v => (v, ⟨v, level, seed'⟩)), seed')

/-- Numpy's `cumsum`: the list of running sums, same length as the input. -/
def cumsum : List Nat → List Nat
  | [] => []
  | x :: xs => x :: (cumsum xs).map (x + ·)

/-- Python's four-way `zip`, truncating to the shortest list. -/
def zip4 {α β γ δ : Type} :
    List α → List β → List γ → List δ → List (α × β × γ × δ)
  | a :: as, b :: bs, c :: cs, d :: ds => (a, b, c, d) :: zip4 as bs cs ds
  | _, _, _, _ => []

/-- The replacement `collect_parameters` builds for one parameter:
`new_params[i:j].reshape(shape)` with `new_param.tag = param.tag` — the
slice bounds into the collected buffer, the original shape, and the
original parameter's tag object carried over. -/
structure SliceReshape where
  lo : Nat
  hi : Nat
  shape : List Nat
  tag : Tag
deriving DecidableEq, Repr

/-- The result of `collect_parameters`: the single fresh shared buffer
(its name and total size) and the substitution mapping handed to
`graph.replace`. -/
structure CollectResult where
  buffer_name : String
  buffer_size : Nat
  replacements : List (Var × SliceReshape)
deriving DecidableEq, Repr

/-- Translated from `collect_parameters` (`blocks/graph.py`): read each
parameter's current value, record sizes and shapes, allocate one fresh
shared buffer `shared_floatx_zeros(sum(param_sizes))` named
`collected_params`, and map each parameter to the slice
`new_params[i:j].reshape(shape)` for consecutive offsets given by
`numpy.cumsum([0] + param_sizes[:-1])` and `numpy.cumsum(param_sizes)`,
copying the parameter's tag onto the slice; the mapping is then handed to
`graph.replace`, which substitutes it throughout the graph. -/
def collect_parameters (w : World) (params : List Var) : CollectResult :=
  let param_values := params.map w.valOf
  let param_sizes := param_values.map NdArray.size
  let param_shapes := param_values.map NdArray.shape
  let offsets := cumsum (0 :: param_sizes.dropLast)
  let ends := cumsum param_sizes
  { buffer_name := "collected_params"
    buffer_size := param_sizes.sum
    replacements :=
      (zip4 params param_shapes offsets ends).map
        (fun q => (q.1, ⟨q.2.2.1, q.2.2.2, q.2.1, w.tagOf q.1⟩)) }

/-!  Basic lemmas about the association-list side tables. -/

theorem assocFind_assocSet_self {β : Type} (l : List (Nat × β)) (k : Nat)
    (v : β) : assocFind (assocSet l k v) k = some v := by
  induction l with
  | nil => simp [assocSet, assocFind]
  | cons p rest ih =>
    obtain ⟨k', v'⟩ := p
    by_cases h : k' = k
    · subst h
      simp [assocSet, assocFind]
    · simp [assocSet, assocFind, h, ih]

theorem assocFind_assocSet_ne {β : Type} (l : List (Nat × β)) (k u : Nat)
    (v : β) (h : u ≠ k) : assocFind (assocSet l k v) u = assocFind l u := by
  induction l with
  | nil => simp [assocSet, assocFind, Ne.symm h]
  | cons p rest ih =>
    obtain ⟨k', v'⟩ := p
    by_cases hk : k' = k
    · subst hk
      simp [assocSet, assocFind, Ne.symm h]
    · by_cases hu : k' = u <;> simp [assocSet, assocFind, hk, hu, ih, h]

theorem tagOf_setTag_self (w : World) (v : Var) (t : Tag) :
    (w.setTag v t).tagOf v = t := by
  simp [World.tagOf, World.setTag, assocFind_assocSet_self]

theorem tagOf_setTag_ne (w : World) (v u : Var) (t : Tag) (h : u ≠ v) :
    (w.setTag v t).tagOf u = w.tagOf u := by
  simp [World.tagOf, World.setTag, assocFind_assocSet_ne _ _ _ _ h]

theorem annOf_setAnn_self (w : World) (a : AnnotationId) (d : AnnotationData) :
    (w.setAnn a d).annOf a = d := by
  simp [World.annOf, World.setAnn, assocFind_assocSet_self]

/-!  Concrete instances used as witnesses and counterexamples. -/

/-- A world with no metadata at all. -/
def emptyWorld : World := ⟨[], [], [], []⟩

/-- The duplicate-output graph of the repository's own test
`test_computation_graph_variable_duplicate`: inputs `x = 1` and `y = 2`,
`w = 3` produced by `x + y`, `z = 4` produced by `exp(w)`. -/
def dupGraph : TGraph :=
  ⟨[⟨3, 0, [1, 2]⟩, ⟨4, 1, [3]⟩], [(1, VKind.input), (2, VKind.input)]⟩

/-- A world with two distinct annotation objects (ids 1 and 2) of the same
concrete kind 0, attached to the two distinct input variables 1 and 2, each
carrying one auxiliary variable (10 resp. 11). -/
def twoStoresWorld : World :=
  ⟨[(1, ⟨[1], [], none⟩), (2, ⟨[2], [], none⟩)],
   [(1, ⟨0, [10], []⟩), (2, ⟨0, [11], []⟩)], [], []⟩

/-- The graph the two annotated inputs feed: `3` produced from `1` and `2`. -/
def twoStoresGraph : TGraph :=
  ⟨[⟨3, 0, [1, 2]⟩], [(1, VKind.input), (2, VKind.input)]⟩

/-- A world with annotation 1 of kind 0 attached to variable 1, and two
detached annotations: 2 of kind 0 and 3 of kind 1. -/
def kindsWorld : World :=
  ⟨[(1, ⟨[1], [], none⟩)],
   [(1, ⟨0, [], []⟩), (2, ⟨0, [], []⟩), (3, ⟨1, [], []⟩)], [], []⟩

/-- A world holding two shared parameters: variable 5 with value of shape
`[2]` (and a `PARAMETER`-like role 7 on its tag), variable 6 with value of
shape `[3]`. -/
def paramsWorld : World :=
  ⟨[(5, ⟨[], [7], none⟩)], [], [], [(5, ⟨[2]⟩), (6, ⟨[3]⟩)]⟩

/-- C1: the spec claims the discovered `variables` list never contains
duplicate node identities, even when one requested output is an ancestor of
another.  The code violates this: `_get_variables` deduplicates only the
chained apply-node inputs and then appends `self.outputs` unconditionally,
so on the repository's own test graph (`w = x + y`, `z = exp(w)`, outputs
`[z, w]`) the output `w` appears twice — contradicting the test
`test_computation_graph_variable_duplicate`, which asserts
`len(set(cg.variables)) == len(cg.variables)` on exactly this graph. -/
theorem variables_duplicate_output_bug :
    (mkComputationGraph emptyWorld dupGraph
      (CGOutputs.many [4, 3])).«variables» = [1, 2, 3, 4, 3] ∧
    ¬ (mkComputationGraph emptyWorld dupGraph
      (CGOutputs.many [4, 3])).«variables».Nodup := by
  decide

/-- C9: constructing a `ComputationGraph` from a bare node is the same as
constructing it from the one-element list, so in particular the `inputs`
views agree (the constructor wraps a bare `Variable` into `[outputs]`
before doing anything else). -/
theorem single_output_wrapping_equiv (w : World) (g : TGraph) (x : Var) :
    mkComputationGraph w g (CGOutputs.single x)
      = mkComputationGraph w g (CGOutputs.many [x]) ∧
    (mkComputationGraph w g (CGOutputs.single x)).inputs g
      = (mkComputationGraph w g (CGOutputs.many [x])).inputs g :=
  ⟨rfl, rfl⟩

/-- C3: `replace` mutates nothing and returns a brand-new graph.  Its body
is a single expression with no assignment to `self` or to any ambient
state, so the embedding threads the world and DAG through untouched (first
conjunct: the state coming out is the state going in, hence the original
graph's `outputs`, `variables` and `updates` are identical before and
after), and the returned object is a fresh `ComputationGraph` construction
— a new discovery run over the substituted outputs (second conjunct). -/
theorem replace_pure_and_fresh (w : World) (g : TGraph)
    (self : ComputationGraph) (repl : List (Var × Var)) :
    (ComputationGraph.replace w g self repl).2 = (w, g) ∧
    (ComputationGraph.replace w g self repl).1 =
      mkComputationGraph w (substGraph g repl)
        (CGOutputs.many (self.outputs.map (substVar repl))) :=
  ⟨rfl, rfl⟩

/-- C8: discovery is deterministic — two discovery runs over the same
world, DAG and outputs produce the same `variables` list and the same
`updates` mapping.  The embedded engine is a pure function of these three
arguments: the source's Python sets (`seen`, `seen_avs`) are only ever
used for membership tests, never iterated, and the topological sort is the
deterministic external comparator sort, so runs cannot diverge. -/
theorem discovery_deterministic (w1 w2 : World) (g1 g2 : TGraph)
    (o1 o2 : List Var) (hw : w1 = w2) (hg : g1 = g2) (ho : o1 = o2) :
    (get_variables w1 g1 o1).1 = (get_variables w2 g2 o2).1 ∧
    (get_variables w1 g1 o1).2 = (get_variables w2 g2 o2).2 := by
  subst hw; subst hg; subst ho; exact ⟨rfl, rfl⟩

theorem discovery_deterministic_witness :
    (get_variables twoStoresWorld twoStoresGraph [3]).1
      = (get_variables twoStoresWorld twoStoresGraph [3]).1 ∧
    (get_variables twoStoresWorld twoStoresGraph [3]).2
      = (get_variables twoStoresWorld twoStoresGraph [3]).2 :=
  discovery_deterministic twoStoresWorld twoStoresWorld twoStoresGraph
    twoStoresGraph [3] [3] rfl rfl rfl

/-- C10: `apply_noise` tests its `seed` argument for Python truthiness
(`if not seed:`), so an explicit `seed=0` is replaced by
`config.default_seed` exactly like an omitted `seed=None`, while any
non-zero explicit seed is used as given — a caller cannot select 0. -/
theorem apply_noise_falsy_seed (vs : List Var) (level : Int) :
    (apply_noise vs level (some 0)).2 = config_default_seed ∧
    (apply_noise vs level none).2 = config_default_seed ∧
    apply_noise vs level (some 0) = apply_noise vs level none ∧
    ∀ n : Int, n ≠ 0 → (apply_noise vs level (some n)).2 = n := by
  refine ⟨rfl, rfl, rfl, ?_⟩
  intro n hn
  simp [apply_noise, pyFalsySeed, hn]

theorem apply_noise_falsy_seed_witness :
    (apply_noise [4] 2 (some 0)).2 = config_default_seed ∧
    (apply_noise [4] 2 (some 7)).2 = 7 :=
  ⟨(apply_noise_falsy_seed [4] 2).1,
   (apply_noise_falsy_seed [4] 2).2.2.2 7 (by decide)⟩

/-- C4 is refuted: the spec claims annotation stores are deduplicated by
concrete kind across the whole graph, so that of two distinct same-kind
stores attached to different main-path nodes only the first contributes
its auxiliary variables.  In `twoStoresWorld` the stores 1 and 2 have the
same kind and sit on the two inputs of `twoStoresGraph`, yet the second
store's auxiliary variable 11 is discovered: the source deduplicates by
store identity (`annotation not in seen`), not by kind. -/
theorem annotation_kind_dedup_counterexample :
    (twoStoresWorld.annOf 1).kind = (twoStoresWorld.annOf 2).kind ∧
    (1 : AnnotationId) ≠ 2 ∧
    (twoStoresWorld.tagOf 1).annotations = [1] ∧
    (twoStoresWorld.tagOf 2).annotations = [2] ∧
    (mkComputationGraph twoStoresWorld twoStoresGraph
      (CGOutputs.many [3])).«variables» = [1, 10, 2, 11, 3] ∧
    11 ∈ (mkComputationGraph twoStoresWorld twoStoresGraph
      (CGOutputs.many [3])).«variables» := by
  decide

/-- C2: attaching a second annotation whose concrete kind is already
present on a node raises `ValueError` (the `DuplicateAnnotation` failure),
while attaching an annotation of a kind not yet present succeeds and
appends it to that node's annotation list, leaving every other node's
metadata untouched. -/
theorem add_annot_kind_spec (w : World) (v : Var) (a : AnnotationId) :
    ((∃ old ∈ (w.tagOf v).annotations,
        (w.annOf old).kind = (w.annOf a).kind) →
      add_annot w v a = Except.error "ValueError") ∧
    ((∀ old ∈ (w.tagOf v).annotations,
        (w.annOf old).kind ≠ (w.annOf a).kind) →
      ∃ w', add_annot w v a = Except.ok w' ∧
        (w'.tagOf v).annotations = (w.tagOf v).annotations ++ [a] ∧
        (∀ u, u ≠ v → w'.tagOf u = w.tagOf u)) := by
  constructor
  · rintro ⟨old, hmem, hkind⟩
    have hany : ((w.tagOf v).annotations.any
        (fun old => (w.annOf old).kind = (w.annOf a).kind)) = true := by
      rw [List.any_eq_true]
      exact ⟨old, hmem, by simp [hkind]⟩
    simp [add_annot, hany]
  · intro hall
    have hany : ((w.tagOf v).annotations.any
        (fun old => (w.annOf old).kind = (w.annOf a).kind)) = false := by
      rw [List.any_eq_false]
      intro x hx
      simp [hall x hx]
    refine ⟨w.setTag v
      { w.tagOf v with annotations := (w.tagOf v).annotations ++ [a] },
      ?_, ?_, ?_⟩
    · simp [add_annot, hany]
    · simp [tagOf_setTag_self]
    · intro u hu
      exact tagOf_setTag_ne w v u _ hu

theorem add_annot_kind_spec_witness :
    add_annot kindsWorld 1 2 = Except.error "ValueError" ∧
    (∃ w', add_annot kindsWorld 1 3 = Except.ok w' ∧
      (w'.tagOf 1).annotations = (kindsWorld.tagOf 1).annotations ++ [3] ∧
      (∀ u, u ≠ 1 → w'.tagOf u = kindsWorld.tagOf u)) :=
  ⟨(add_annot_kind_spec kindsWorld 1 2).1 ⟨1, by decide, by decide⟩,
   (add_annot_kind_spec kindsWorld 1 3).2 (by decide)⟩

/-!  The annotation-visiting discipline of the discovery loop. -/

theorem seen_processAnnot (w : World) (s : DiscoveryState)
    (a : AnnotationId) :
    (processAnnot w s a).seen = dedupStep s.seen a := by
  unfold processAnnot dedupStep
  split <;> rfl

theorem seen_foldl_processAnnot (w : World) (l : List AnnotationId)
    (s : DiscoveryState) :
    (l.foldl (processAnnot w) s).seen = l.foldl dedupStep s.seen := by
  induction l generalizing s with
  | nil => rfl
  | cons a rest ih =>
    simp only [List.foldl_cons]
    rw [ih, seen_processAnnot]

theorem seen_processVar (w : World) (s : DiscoveryState) (v : Var) :
    (processVar w s v).seen
      = (w.tagOf v).annotations.foldl dedupStep s.seen := by
  unfold processVar
  rw [seen_foldl_processAnnot]

theorem seen_foldl_processVar (w : World) (main : List Var)
    (s : DiscoveryState) :
    (main.foldl (processVar w) s).seen =
      ((main.map (fun v => (w.tagOf v).annotations)).flatten).foldl
        dedupStep s.seen := by
  induction main generalizing s with
  | nil => rfl
  | cons v rest ih =>
    simp only [List.foldl_cons, List.map_cons, List.flatten_cons,
      List.foldl_append]
    rw [ih, seen_processVar]

theorem nodup_foldl_dedupStep {α : Type} [DecidableEq α] (l : List α)
    (acc : List α) (h : acc.Nodup) : (l.foldl dedupStep acc).Nodup := by
  induction l generalizing acc with
  | nil => simpa using h
  | cons x rest ih =>
    simp only [List.foldl_cons]
    apply ih
    unfold dedupStep
    split
    · exact h
    · rename_i hc
      have hx : x ∉ acc := by simpa using hc
      simp [List.nodup_append, h, hx]

/-- C4 amended: during discovery, annotation stores are visited at most
once each, deduplicated by store *identity* across the whole graph — the
sequence of stores whose auxiliary variables and updates are merged is
exactly the first-occurrence deduplication of all stores attached to the
main-path nodes in order, with no reference to the stores' concrete kinds
(so two distinct same-kind stores on different nodes each contribute,
refuting the dedup-by-kind reading), and no store is processed twice. -/
theorem annotation_dedup_by_identity (w : World) (g : TGraph)
    (outs : List Var) :
    (discover w g outs).seen =
      dedupAppend (((mainVars g outs).map
        (fun v => (w.tagOf v).annotations)).flatten) ∧
    (discover w g outs).seen.Nodup := by
  constructor
  · unfold discover dedupAppend
    rw [seen_foldl_processVar]
  · unfold discover
    rw [seen_foldl_processVar]
    exact nodup_foldl_dedupStep _ _ List.nodup_nil

/-!  Frame lemmas for the world-mutating operations. -/

theorem add_annot_error (w : World) (v : Var) (a : AnnotationId)
    (hsome : ∃ old ∈ (w.tagOf v).annotations,
      (w.annOf old).kind = (w.annOf a).kind) :
    add_annot w v a = Except.error "ValueError" := by
  obtain ⟨old, hmem, hkind⟩ := hsome
  have hany : ((w.tagOf v).annotations.any
      (fun old => (w.annOf old).kind = (w.annOf a).kind)) = true := by
    rw [List.any_eq_true]
    exact ⟨old, hmem, by simp [hkind]⟩
  simp [add_annot, hany]

theorem add_annot_ok (w : World) (v : Var) (a : AnnotationId)
    (hall : ∀ old ∈ (w.tagOf v).annotations,
      (w.annOf old).kind ≠ (w.annOf a).kind) :
    add_annot w v a = Except.ok (w.setTag v
      { w.tagOf v with
        annotations := (w.tagOf v).annotations ++ [a] }) := by
  have hany : ((w.tagOf v).annotations.any
      (fun old => (w.annOf old).kind = (w.annOf a).kind)) = false := by
    rw [List.any_eq_false]
    intro x hx
    simp [hall x hx]
  simp [add_annot, hany]

theorem annOf_foldl_add_role (w : World) (e : Var) (rs : List Role)
    (a : AnnotationId) :
    ((rs.foldl (fun w r => add_role w e r) w).annOf a) = w.annOf a := by
  induction rs generalizing w with
  | nil => rfl
  | cons r rest ih =>
    simp only [List.foldl_cons]
    rw [ih]
    rfl

theorem varNames_foldl_add_role (w : World) (e : Var) (rs : List Role) :
    (rs.foldl (fun w r => add_role w e r) w).varNames = w.varNames := by
  induction rs generalizing w with
  | nil => rfl
  | cons r rest ih =>
    simp only [List.foldl_cons]
    rw [ih]
    rfl

theorem tagOf_add_role_self (w : World) (e : Var) (r : Role) :
    (add_role w e r).tagOf e
      = { w.tagOf e with roles := (w.tagOf e).roles ++ [r] } := by
  simp [add_role, tagOf_setTag_self]

theorem tagOf_foldl_add_role (w : World) (e : Var) (rs : List Role) :
    (rs.foldl (fun w r => add_role w e r) w).tagOf e
      = { w.tagOf e with roles := (w.tagOf e).roles ++ rs } := by
  induction rs generalizing w with
  | nil => simp
  | cons r rest ih =>
    simp only [List.foldl_cons]
    rw [ih, tagOf_add_role_self]
    simp

theorem annOf_add_role (w : World) (v : Var) (r : Role) (a : AnnotationId) :
    (add_role w v r).annOf a = w.annOf a := rfl

theorem annOf_setTag (w : World) (v : Var) (t : Tag) (a : AnnotationId) :
    (w.setTag v t).annOf a = w.annOf a := rfl

theorem annOf_setName (w : World) (v : Var) (n : String) (a : AnnotationId) :
    (w.setName v n).annOf a = w.annOf a := rfl

theorem tagOf_setAnn (w : World) (a : AnnotationId) (d : AnnotationData)
    (v : Var) : (w.setAnn a d).tagOf v = w.tagOf v := rfl

theorem tagOf_setName (w : World) (v : Var) (n : String) (u : Var) :
    (w.setName v n).tagOf u = w.tagOf u := rfl

theorem varNames_setTag (w : World) (v : Var) (t : Tag) :
    (w.setTag v t).varNames = w.varNames := rfl

theorem varNames_setAnn (w : World) (a : AnnotationId) (d : AnnotationData) :
    (w.setAnn a d).varNames = w.varNames := rfl

theorem varNames_add_role (w : World) (v : Var) (r : Role) :
    (add_role w v r).varNames = w.varNames := rfl

theorem varNames_setName (w : World) (v : Var) (n : String) :
    (w.setName v n).varNames = assocSet w.varNames v n := rfl

/-- C5: `add_auxiliary_variable` first attaches the store itself to the
expression — failing with the attacher's `ValueError` when a store of the
same kind is already attached, in which case nothing else happens — and on
success appends the expression as the new last element of the store's
`auxiliary_variables` list, records the attachment on the expression's
tag, always adds the `AUXILIARY` role, adds every caller-supplied role,
and sets the expression's name (both `expression.name` and
`expression.tag.name`) when a name is given. -/
theorem add_auxiliary_variable_spec (w : World) (a : AnnotationId) (e : Var)
    (rs : Option (List Role)) (n : Option String) :
    ((∃ old ∈ (w.tagOf e).annotations,
        (w.annOf old).kind = (w.annOf a).kind) →
      add_auxiliary_variable w a e rs n = Except.error "ValueError") ∧
    ((∀ old ∈ (w.tagOf e).annotations,
        (w.annOf old).kind ≠ (w.annOf a).kind) →
      ∃ w', add_auxiliary_variable w a e rs n = Except.ok w' ∧
        (w'.annOf a).auxiliary_variables
          = (w.annOf a).auxiliary_variables ++ [e] ∧
        a ∈ (w'.tagOf e).annotations ∧
        AUXILIARY ∈ (w'.tagOf e).roles ∧
        (∀ r ∈ rs.getD [], r ∈ (w'.tagOf e).roles) ∧
        (∀ str, n = some str →
          (w'.tagOf e).name = some str ∧
          assocFind w'.varNames e = some str)) := by
  constructor
  · intro hsome
    simp only [add_auxiliary_variable, add_annot_error w e a hsome]
  · intro hall
    cases n with
    | none =>
      cases rs with
      | none =>
        simp only [add_auxiliary_variable, add_annot_ok w e a hall]
        refine ⟨_, rfl, ?_, ?_, ?_, ?_, ?_⟩
        · simp [annOf_setAnn_self, annOf_add_role, annOf_setTag]
        · simp [tagOf_setAnn, tagOf_add_role_self, tagOf_setTag_self]
        · simp [tagOf_setAnn, tagOf_add_role_self, tagOf_setTag_self]
        · simp
        · intro str h
          exact absurd h (by simp)
      | some rlist =>
        simp only [add_auxiliary_variable, add_annot_ok w e a hall]
        refine ⟨_, rfl, ?_, ?_, ?_, ?_, ?_⟩
        · simp [annOf_setAnn_self, annOf_foldl_add_role, annOf_add_role,
            annOf_setTag]
        · simp [tagOf_setAnn, tagOf_foldl_add_role, tagOf_add_role_self,
            tagOf_setTag_self]
        · simp [tagOf_setAnn, tagOf_foldl_add_role, tagOf_add_role_self,
            tagOf_setTag_self]
        · intro r hr
          simp only [Option.getD_some] at hr
          simp [tagOf_setAnn, tagOf_foldl_add_role, tagOf_add_role_self,
            tagOf_setTag_self]
          exact Or.inr (Or.inr hr)
        · intro str h
          exact absurd h (by simp)
    | some s0 =>
      cases rs with
      | none =>
        simp only [add_auxiliary_variable, add_annot_ok w e a hall]
        refine ⟨_, rfl, ?_, ?_, ?_, ?_, ?_⟩
        · simp [annOf_setAnn_self, annOf_add_role, annOf_setTag,
            annOf_setName]
        · simp [tagOf_setAnn, tagOf_add_role_self, tagOf_setTag_self,
            tagOf_setName]
        · simp [tagOf_setAnn, tagOf_add_role_self, tagOf_setTag_self,
            tagOf_setName]
        · simp
        · intro str h
          obtain rfl : s0 = str := by simpa using h
          constructor
          · simp [tagOf_setAnn, tagOf_add_role_self, tagOf_setTag_self,
              tagOf_setName]
          · simp [varNames_setAnn, varNames_add_role, varNames_setTag,
              varNames_setName, assocFind_assocSet_self]
      | some rlist =>
        simp only [add_auxiliary_variable, add_annot_ok w e a hall]
        refine ⟨_, rfl, ?_, ?_, ?_, ?_, ?_⟩
        · simp [annOf_setAnn_self, annOf_foldl_add_role, annOf_add_role,
            annOf_setTag, annOf_setName]
        · simp [tagOf_setAnn, tagOf_foldl_add_role, tagOf_add_role_self,
            tagOf_setTag_self, tagOf_setName]
        · simp [tagOf_setAnn, tagOf_foldl_add_role, tagOf_add_role_self,
            tagOf_setTag_self, tagOf_setName]
        · intro r hr
          simp only [Option.getD_some] at hr
          simp [tagOf_setAnn, tagOf_foldl_add_role, tagOf_add_role_self,
            tagOf_setTag_self, tagOf_setName]
          exact Or.inr (Or.inr hr)
        · intro str h
          obtain rfl : s0 = str := by simpa using h
          constructor
          · simp [tagOf_setAnn, tagOf_foldl_add_role, tagOf_add_role_self,
              tagOf_setTag_self, tagOf_setName]
          · simp [varNames_setAnn, varNames_foldl_add_role,
              varNames_add_role, varNames_setTag, varNames_setName,
              assocFind_assocSet_self]

theorem add_auxiliary_variable_spec_witness :
    ∃ w', add_auxiliary_variable emptyWorld 9 4 (some [5, 6]) (some "aux")
        = Except.ok w' ∧
      (w'.annOf 9).auxiliary_variables
        = (emptyWorld.annOf 9).auxiliary_variables ++ [4] ∧
      9 ∈ (w'.tagOf 4).annotations ∧
      AUXILIARY ∈ (w'.tagOf 4).roles ∧
      (∀ r ∈ (some [5, 6] : Option (List Role)).getD [],
        r ∈ (w'.tagOf 4).roles) ∧
      (∀ str, (some "aux" : Option String) = some str →
        (w'.tagOf 4).name = some str ∧
        assocFind w'.varNames 4 = some str) :=
  (add_auxiliary_variable_spec emptyWorld 9 4 (some [5, 6])
    (some "aux")).2 (by decide)

/-!  Ordered-dictionary lemmas for the update merge. -/

theorem assocFind_eq_none {β : Type} (d : List (Nat × β)) (k : Nat)
    (h : k ∉ d.map Prod.fst) : assocFind d k = none := by
  induction d with
  | nil => rfl
  | cons p rest ih =>
    obtain ⟨k', v'⟩ := p
    simp only [List.map_cons, List.mem_cons] at h
    push_neg at h
    simp [assocFind, Ne.symm h.1, ih h.2]

theorem assocFind_append_left {β : Type} (l1 l2 : List (Nat × β)) (k : Nat)
    (v : β) (h : assocFind l1 k = some v) :
    assocFind (l1 ++ l2) k = some v := by
  induction l1 with
  | nil => simp [assocFind] at h
  | cons p rest ih =>
    obtain ⟨k', v'⟩ := p
    by_cases hk : k' = k
    · simp_all [assocFind]
    · simp [assocFind, hk] at h ⊢
      exact ih h

theorem assocFind_append_right {β : Type} (l1 l2 : List (Nat × β)) (k : Nat)
    (h : assocFind l1 k = none) :
    assocFind (l1 ++ l2) k = assocFind l2 k := by
  induction l1 with
  | nil => rfl
  | cons p rest ih =>
    obtain ⟨k', v'⟩ := p
    by_cases hk : k' = k
    · simp [assocFind, hk] at h
    · simp [assocFind, hk] at h ⊢
      exact ih h

theorem assocFind_map_replace_self (d : List (Var × Var)) (k v : Var)
    (h : k ∈ d.map Prod.fst) :
    assocFind (d.map (fun p => if p.1 = k then (p.1, v) else p)) k
      = some v := by
  induction d with
  | nil => simp at h
  | cons p rest ih =>
    obtain ⟨k', v'⟩ := p
    simp only [List.map_cons, List.mem_cons] at h
    simp only [List.map_cons]
    by_cases hk : k' = k
    · subst hk
      rw [if_pos rfl]
      simp [assocFind]
    · rw [if_neg hk]
      have hr : k ∈ rest.map Prod.fst := by
        rcases h with h | h
        · exact absurd h.symm hk
        · exact h
      simp [assocFind, hk, ih hr]

theorem assocFind_map_replace_ne (d : List (Var × Var)) (k v u : Var)
    (h : u ≠ k) :
    assocFind (d.map (fun p => if p.1 = k then (p.1, v) else p)) u
      = assocFind d u := by
  induction d with
  | nil => rfl
  | cons p rest ih =>
    obtain ⟨k', v'⟩ := p
    simp only [List.map_cons]
    by_cases hk : k' = k
    · subst hk
      rw [if_pos rfl]
      simp [assocFind, Ne.symm h, ih]
    · rw [if_neg hk]
      by_cases hu : k' = u <;> simp [assocFind, hk, hu, ih]

theorem assocFind_dictInsert_self (d : List (Var × Var)) (k v : Var) :
    assocFind (dictInsert d (k, v)) k = some v := by
  unfold dictInsert
  by_cases hc : k ∈ d.map Prod.fst
  · rw [if_pos (by simpa using hc)]
    exact assocFind_map_replace_self d k v hc
  · rw [if_neg (by simpa using hc)]
    rw [assocFind_append_right _ _ _ (assocFind_eq_none d k hc)]
    simp [assocFind]

theorem assocFind_dictInsert_ne (d : List (Var × Var)) (k v u : Var)
    (h : u ≠ k) :
    assocFind (dictInsert d (k, v)) u = assocFind d u := by
  unfold dictInsert
  by_cases hc : k ∈ d.map Prod.fst
  · rw [if_pos (by simpa using hc)]
    exact assocFind_map_replace_ne d k v u h
  · rw [if_neg (by simpa using hc)]
    cases hfind : assocFind d u with
    | some v0 => exact assocFind_append_left _ _ _ _ hfind
    | none =>
      rw [assocFind_append_right _ _ _ hfind]
      simp [assocFind, Ne.symm h]

theorem assocFind_dict_union (d2 : List (Var × Var))
    (hnd : (d2.map Prod.fst).Nodup) (d1 : List (Var × Var)) (k : Var) :
    assocFind (dict_union d1 d2) k =
      if k ∈ d2.map Prod.fst then assocFind d2 k
      else assocFind d1 k := by
  induction d2 generalizing d1 with
  | nil => simp [dict_union]
  | cons p rest ih =>
    obtain ⟨a, b⟩ := p
    simp only [List.map_cons, List.nodup_cons] at hnd
    have hstep : dict_union d1 ((a, b) :: rest)
        = dict_union (dictInsert d1 (a, b)) rest := rfl
    rw [hstep, ih hnd.2]
    by_cases hmem : k ∈ rest.map Prod.fst
    · have hka : k ≠ a := fun he => hnd.1 (he ▸ hmem)
      simp [hmem, assocFind, Ne.symm hka]
    · by_cases hka : k = a
      · subst hka
        simp [hmem, assocFind, assocFind_dictInsert_self]
      · simp [hmem, hka, assocFind, Ne.symm hka,
          assocFind_dictInsert_ne d1 a b k hka]

theorem foldl_dictInsert_of_disjoint (l acc : List (Var × Var))
    (hnd : (l.map Prod.fst).Nodup)
    (hdisj : ∀ p ∈ l, p.1 ∉ acc.map Prod.fst) :
    l.foldl dictInsert acc = acc ++ l := by
  induction l generalizing acc with
  | nil => simp
  | cons p rest ih =>
    obtain ⟨k, v⟩ := p
    simp only [List.map_cons, List.nodup_cons] at hnd
    have hk : k ∉ acc.map Prod.fst := hdisj (k, v) (by simp)
    have hins : dictInsert acc (k, v) = acc ++ [(k, v)] := by
      unfold dictInsert
      rw [if_neg (by simpa using hk)]
    simp only [List.foldl_cons, hins]
    rw [ih (acc ++ [(k, v)]) hnd.2]
    · simp
    · intro p hp
      simp only [List.map_append, List.mem_append, List.map_cons]
      push_neg
      constructor
      · exact hdisj p (by simp [hp])
      · have hne : p.1 ≠ k := by
          intro he
          exact hnd.1 (he ▸ List.mem_map_of_mem Prod.fst hp)
        simpa using hne

theorem toOrderedDict_eq_self (l : List (Var × Var))
    (hnd : (l.map Prod.fst).Nodup) : toOrderedDict l = l := by
  unfold toOrderedDict
  rw [foldl_dictInsert_of_disjoint l [] hnd (by simp)]
  simp

/-- C7: when compiling with extra updates, the update contract handed to
the compiler is the graph's own `updates` merged with the caller-supplied
`additional_updates`, and on a key collision the caller-supplied binding
wins, while keys only in the graph's updates keep their original
binding. -/
theorem extra_updates_precedence (self : ComputationGraph)
    (extra : List (Var × Var)) (hnd : (extra.map Prod.fst).Nodup) :
    (∀ k, k ∈ extra.map Prod.fst →
      assocFind (get_theano_function_updates self extra) k
        = assocFind extra k) ∧
    (∀ k, k ∉ extra.map Prod.fst →
      assocFind (get_theano_function_updates self extra) k
        = assocFind self.updates k) := by
  unfold get_theano_function_updates
  cases extra with
  | nil =>
    constructor
    · intro k hk
      simp at hk
    · intro k hk
      simp
  | cons p rest =>
    simp only [List.isEmpty_cons, if_false, Bool.false_eq_true]
    rw [toOrderedDict_eq_self _ hnd]
    constructor
    · intro k hk
      rw [assocFind_dict_union _ hnd, if_pos hk]
    · intro k hk
      rw [assocFind_dict_union _ hnd, if_neg hk]

/-- A concrete graph record carrying two merged updates. -/
def updatesCG : ComputationGraph := ⟨[1], [1], [(2, 10), (3, 11)]⟩

theorem extra_updates_precedence_witness :
    assocFind (get_theano_function_updates updatesCG [(2, 20), (4, 12)]) 2
      = assocFind [(2, 20), (4, 12)] 2 ∧
    assocFind (get_theano_function_updates updatesCG [(2, 20), (4, 12)]) 3
      = assocFind updatesCG.updates 3 :=
  ⟨(extra_updates_precedence updatesCG [(2, 20), (4, 12)] (by decide)).1 2
      (by decide),
   (extra_updates_precedence updatesCG [(2, 20), (4, 12)] (by decide)).2 3
      (by decide)⟩

/-!  Arithmetic of the parameter-collection offsets. -/

theorem cumsum_length (l : List Nat) : (cumsum l).length = l.length := by
  induction l with
  | nil => rfl
  | cons x xs ih => simp [cumsum, ih]

theorem cumsum_getElem (l : List Nat) (k : Nat) (h : k < l.length) :
    (cumsum l)[k]? = some ((l.take (k + 1)).sum) := by
  induction l generalizing k with
  | nil => simp at h
  | cons x xs ih =>
    cases k with
    | zero => simp [cumsum]
    | succ j =>
      simp only [cumsum, List.getElem?_cons_succ, List.getElem?_map]
      rw [ih j (by simpa using h)]
      simp [List.take_succ_cons]

theorem cumsum_offsets_getElem (l : List Nat) (k : Nat) (h : k < l.length) :
    (cumsum (0 :: l.dropLast))[k]? = some ((l.take k).sum) := by
  cases k with
  | zero => simp [cumsum]
  | succ j =>
    simp only [cumsum, List.getElem?_cons_succ, List.getElem?_map]
    have hj : j < l.dropLast.length := by
      rw [List.length_dropLast]
      omega
    rw [cumsum_getElem _ j hj]
    have htake : l.dropLast.take (j + 1) = l.take (j + 1) := by
      rw [List.dropLast_eq_take, List.take_take]
      congr 1
      omega
    simp [htake]

theorem zip4_length {α β γ δ : Type} (n : Nat) :
    ∀ (as : List α) (bs : List β) (cs : List γ) (ds : List δ),
    as.length = n → bs.length = n → cs.length = n → ds.length = n →
    (zip4 as bs cs ds).length = n := by
  induction n with
  | zero =>
    intro as bs cs ds ha hb hc hd
    rw [List.length_eq_zero] at ha hb hc hd
    subst ha; subst hb; subst hc; subst hd
    rfl
  | succ m ih =>
    intro as bs cs ds ha hb hc hd
    cases as with
    | nil => simp at ha
    | cons a as =>
      cases bs with
      | nil => simp at hb
      | cons b bs =>
        cases cs with
        | nil => simp at hc
        | cons c cs =>
          cases ds with
          | nil => simp at hd
          | cons d ds =>
            simp only [List.length_cons] at ha hb hc hd
            simp only [zip4, List.length_cons]
            rw [ih as bs cs ds (by omega) (by omega) (by omega) (by omega)]

theorem zip4_getElem {α β γ δ : Type} (as : List α) :
    ∀ (bs : List β) (cs : List γ) (ds : List δ) (k : Nat)
      (a : α) (b : β) (c : γ) (d : δ),
    as[k]? = some a → bs[k]? = some b → cs[k]? = some c →
    ds[k]? = some d →
    (zip4 as bs cs ds)[k]? = some (a, b, c, d) := by
  induction as with
  | nil =>
    intro bs cs ds k a b c d ha
    simp at ha
  | cons a0 as ih =>
    intro bs cs ds k a b c d ha hb hc hd
    cases bs with
    | nil => simp at hb
    | cons b0 bs =>
      cases cs with
      | nil => simp at hc
      | cons c0 cs =>
        cases ds with
        | nil => simp at hd
        | cons d0 ds =>
          cases k with
          | zero =>
            simp only [List.getElem?_cons_zero, Option.some_inj] at ha hb hc hd
            subst ha; subst hb; subst hc; subst hd
            simp [zip4]
          | succ j =>
            simp only [List.getElem?_cons_succ] at ha hb hc hd
            simp only [zip4, List.getElem?_cons_succ]
            exact ih bs cs ds j a b c d ha hb hc hd

/-- C6: for parameters with element counts `s_1 .. s_n`, the collection
transformation allocates exactly one fresh buffer (named
`collected_params`) of total size `s_1 + ... + s_n`, and the substitution
it hands to `graph.replace` maps the `k`-th parameter to the slice of that
buffer starting at offset `s_1 + ... + s_(k-1)` of length `s_k`, reshaped
to the parameter's original shape, with the original parameter's `tag`
(roles and annotations) carried over to the replacement. -/
theorem collect_parameters_slices (w : World) (params : List Var) (k : Nat)
    (h : k < params.length) :
    (collect_parameters w params).buffer_name = "collected_params" ∧
    (collect_parameters w params).buffer_size
      = (params.map (fun q => (w.valOf q).size)).sum ∧
    (collect_parameters w params).replacements.length = params.length ∧
    (∀ p, params[k]? = some p →
      (collect_parameters w params).replacements[k]? =
        some (p,
          ⟨((params.take k).map (fun q => (w.valOf q).size)).sum,
           ((params.take k).map (fun q => (w.valOf q).size)).sum
             + (w.valOf p).size,
           (w.valOf p).shape, w.tagOf p⟩)) := by
  have hsz : (params.map w.valOf).map NdArray.size
      = params.map (fun q => (w.valOf q).size) := by
    rw [List.map_map]
    rfl
  refine ⟨rfl, ?_, ?_, ?_⟩
  · simp only [collect_parameters]
    rw [hsz]
  · simp only [collect_parameters, List.length_map]
    apply zip4_length params.length
    · rfl
    · simp
    · rw [cumsum_length]
      simp only [List.length_cons, List.length_dropLast, List.length_map]
      omega
    · rw [cumsum_length]
      simp
  · intro p hp
    have hk2 : k < ((params.map w.valOf).map NdArray.size).length := by
      simpa using h
    have hshape : ((params.map w.valOf).map NdArray.shape)[k]?
        = some ((w.valOf p).shape) := by
      rw [List.getElem?_map, List.getElem?_map, hp]
      rfl
    have hoff := cumsum_offsets_getElem
      ((params.map w.valOf).map NdArray.size) k hk2
    have hend := cumsum_getElem
      ((params.map w.valOf).map NdArray.size) k hk2
    have hsk : (params.map (fun q => (w.valOf q).size))[k]?
        = some ((w.valOf p).size) := by
      rw [List.getElem?_map, hp]
      rfl
    simp only [collect_parameters]
    rw [List.getElem?_map,
      zip4_getElem params _ _ _ k p _ _ _ hp hshape hoff hend]
    rw [hsz, List.take_succ, hsk]
    simp [← List.map_take]

theorem collect_parameters_slices_witness :
    (collect_parameters paramsWorld [5, 6]).buffer_size
      = (([5, 6] : List Var).map (fun q => (paramsWorld.valOf q).size)).sum ∧
    (collect_parameters paramsWorld [5, 6]).replacements[1]? =
      some (6,
        ⟨((([5, 6] : List Var).take 1).map
            (fun q => (paramsWorld.valOf q).size)).sum,
         ((([5, 6] : List Var).take 1).map
            (fun q => (paramsWorld.valOf q).size)).sum
           + (paramsWorld.valOf 6).size,
         (paramsWorld.valOf 6).shape, paramsWorld.tagOf 6⟩) :=
  ⟨(collect_parameters_slices paramsWorld [5, 6] 1 (by decide)).2.1,
   (collect_parameters_slices paramsWorld [5, 6] 1 (by decide)).2.2.2 6
     (by decide)⟩
